import Mathlib

/-!
Batch video-transcode pipeline of `download_scripts/download_OpenVid.py`.

Shallow embedding of the batch transcode pipeline: `resize_video`,
`process_single_video` and `process_videos_in_folder` from
`src/download_scripts/download_OpenVid.py`, together with the path
manipulation helpers they use (`os.path.basename`, `os.path.splitext`,
`os.path.join`, `glob.glob`).

Modelling choices:
* Paths and file names are lists of characters (`List Char`).
* The file system is a map `Path → Option Nat`: `some c` means a file with
  (abstract) content `c` is present, `none` means absent.  Directories are
  not modelled (`os.makedirs(processed_folder, exist_ok=True)` at line 80
  creates a directory and affects no file).
* External effects (the ffmpeg subprocess of `resize_video`, the possible
  `OSError` of `os.remove`) are driven by an oracle `Env`: `transcodeOk`
  gives the exit status of the ffmpeg invocation, `transcodeContent` the
  content it writes to the destination on success, `removeFails` whether
  `os.remove` raises `OSError`.  A `World` carries the file system plus a
  counter of ffmpeg invocations performed so far.
* The worker pool (`mp.Pool` + `imap_unordered`, lines 104–111) is embedded
  as a sequential fold over the job list; the tally in the source is
  accumulated per result and is order-independent.  The pool size computed
  at lines 95–96 is recorded in the returned report.
* `process_videos_in_folder` prints its tally rather than returning it; the
  embedding returns the tally (`Report`) it prints, with `poolSize = none`
  on the early-return path (lines 88–90) where no pool is created and no
  tally is printed.
* `glob.glob(os.path.join(folder, pat))` is modelled over an explicit
  directory listing (the file names the OS scan yields, slash-free): a name
  matches the pattern `*.<ext>` iff it ends with `.<ext>` and — glob's
  hidden-file rule — does not begin with a dot.
-/

namespace OpenVid

/-- A path (or file name): a list of characters. -/
abbrev Path := List Char

/-! ## Path helpers: `os.path.basename`, `os.path.splitext`, `os.path.join` -/

/-- Split a list around the last occurrence of `c`: `splitLast c l = some (b, a)`
when `l = b ++ c :: a` and `c ∉ a`; `none` when `c ∉ l`. -/
def splitLast (c : Char) : List Char → Option (List Char × List Char)
  | [] => none
  | x :: xs =>
    match splitLast c xs with
    | some p => some (x :: p.1, p.2)
    | none => if x = c then some ([], xs) else none

/-- Model of `os.path.basename`: everything after the last `/` (the whole
path when it has no `/`). -/
def basename (p : Path) : List Char :=
  match splitLast '/' p with
  | some q => q.2
  | none => p

/-- Model of `os.path.splitext` on a slash-free file name: split at the last
dot, except that a name whose part before the last dot consists only of dots
(e.g. `.bashrc`, `..x`) has empty extension, exactly as in CPython's
`posixpath.splitext`. -/
def splitext (name : List Char) : List Char × List Char :=
  match splitLast '.' name with
  | none => (name, [])
  | some q => if q.1.all (fun c => c = '.') then (name, []) else (q.1, '.' :: q.2)

/-- Model of `os.path.join dir name` for a non-empty `dir` without trailing
separator and a relative `name`: `dir ++ "/" ++ name`. -/
def pathJoin (dir name : List Char) : Path := dir ++ '/' :: name

/-- The literal suffix tag `"_480p"` inserted between stem and extension
(line 53 of the source). -/
def tag480 : List Char := "_480p".toList

/-- Destination name for an input file name: `stem ++ "_480p" ++ ext` with
`(stem, ext) = os.path.splitext name` (lines 52–53). -/
def destName (name : List Char) : List Char :=
  (splitext name).1 ++ tag480 ++ (splitext name).2

/-- Destination path of a job: `os.path.join(processed_folder,
f"{name}_480p{ext}")` for `name, ext = os.path.splitext(os.path.basename(video_file))`
(lines 51–53 of the source). -/
def dstOf (processedFolder : Path) (videoFile : Path) : Path :=
  pathJoin processedFolder (destName (basename videoFile))

/-! ## Enumeration: `glob.glob` over the six patterns (lines 83–86) -/

/-- The six glob patterns' extensions, in source order (line 83:
`['*.mp4', '*.avi', '*.mov', '*.mkv', '*.webm', '*.flv']`). -/
def videoExtensions : List (List Char) :=
  ["mp4".toList, "avi".toList, "mov".toList, "mkv".toList, "webm".toList, "flv".toList]

/-- Model of matching a directory entry `n` against the glob pattern
`*.<e>`: `fnmatch` makes `*` match any sequence, so the name must end with
`.<e>`; `glob` additionally hides entries that begin with a dot, since the
pattern does not. -/
def globMatch (e : List Char) (n : List Char) : Bool :=
  (n.head? != some '.') && decide ('.' :: e <:+ n)

/-- The names of a directory listing that match one of the six patterns, in
pattern-major order — the name-level content of the loop at lines 84–86. -/
def matchingNames (listing : List (List Char)) : List (List Char) :=
  videoExtensions.flatMap (fun e => listing.filter (globMatch e))

/-- Model of lines 84–86: for each pattern, `glob.glob(os.path.join(video_folder, pat))`
returns the matching entries of the folder's listing as full paths, and the
results are concatenated in pattern order. -/
def collectVideoFiles (videoFolder : Path) (listing : List (List Char)) : List Path :=
  videoExtensions.flatMap (fun e => (listing.filter (globMatch e)).map (pathJoin videoFolder))

/-! ## The effectful model -/

/-- Oracle for the external world: ffmpeg's exit status and output content
for a given input/output pair, and whether `os.remove` raises `OSError` on a
given path. -/
structure Env where
  transcodeOk : Path → Path → Bool
  transcodeContent : Path → Path → Nat
  removeFails : Path → Bool

/-- Program state: the file system plus the number of ffmpeg invocations
performed so far. -/
structure World where
  fs : Path → Option Nat
  calls : Nat

/-- Model of `resize_video(input_path, output_path)` (lines 12–42): invoke
ffmpeg (counted in `calls`); on zero exit status the destination is written
(`-y` overwrites) and `True` is returned, on non-zero exit the error is
printed and `False` is returned. -/
def resize_video (env : Env) (w : World) (inputPath outputPath : Path) : Bool × World :=
  if env.transcodeOk inputPath outputPath then
    (true, ⟨fun p => if p = outputPath then some (env.transcodeContent inputPath outputPath) else w.fs p,
            w.calls + 1⟩)
  else
    (false, ⟨w.fs, w.calls + 1⟩)

/-- Model of `os.remove(p)` wrapped in `try/except OSError` (lines 65–69):
removal succeeds when the file exists and the oracle raises no `OSError`;
otherwise the exception is caught, a warning is printed, and the file system
is unchanged. -/
def osRemove (env : Env) (w : World) (p : Path) : Bool × World :=
  if (w.fs p).isSome && !env.removeFails p then
    (true, ⟨fun q => if q = p then none else w.fs q, w.calls⟩)
  else
    (false, w)

/-- Model of `process_single_video((video_file, processed_folder))`
(lines 45–73).  Computes the destination path (lines 51–53, `dstOf`); if it
exists, returns success without touching anything (lines 55–57); otherwise
invokes `resize_video` (line 60); on success deletes the original, ignoring
`OSError` (lines 62–69); returns the
`(success, video_file, output_path, filename)` tuple (line 73). -/
def process_single_video (env : Env) (w : World) (videoFile processedFolder : Path) :
    (Bool × Path × Path × Path) × World :=
  let filename := basename videoFile
  let outputPath := dstOf processedFolder videoFile
  if (w.fs outputPath).isSome then
    ((true, videoFile, outputPath, filename), w)
  else
    let r := resize_video env w videoFile outputPath
    if r.1 then
      ((true, videoFile, outputPath, filename), (osRemove env r.2 videoFile).2)
    else
      ((false, videoFile, outputPath, filename), r.2)

/-- The tally `process_videos_in_folder` prints (line 117), plus the worker
pool size it created (`none` when the early return at lines 88–90 creates no
pool and prints no tally). -/
structure Report where
  successful : Nat
  failed : Nat
  poolSize : Option Nat
deriving DecidableEq

/-- Sequential embedding of the pool fan-out and tally loop (lines 104–115):
run each job, count its result's success flag. -/
def runJobs (env : Env) (processedFolder : Path) : List Path → World → Nat × Nat × World
  | [], w => (0, 0, w)
  | v :: vs, w =>
    let r := process_single_video env w v processedFolder
    let rest := runJobs env processedFolder vs r.2
    (if r.1.1 then rest.1 + 1 else rest.1,
     if r.1.1 then rest.2.1 else rest.2.1 + 1,
     rest.2.2)

/-- Model of `process_videos_in_folder(video_folder, processed_folder, num_processes)`
(lines 76–117).  `listing` is the directory scan of `video_folder` backing
`glob`; `cpuCount` models `mp.cpu_count()`.  Enumerates the video files
(lines 83–86); returns immediately when none match (lines 88–90); otherwise
computes the pool size (`min(mp.cpu_count(), len(video_files), 64)` when
`num_processes is None`, lines 95–96), runs all jobs and tallies their
results (lines 104–115). -/
def process_videos_in_folder (env : Env) (w : World) (videoFolder processedFolder : Path)
    (listing : List (List Char)) (numProcesses : Option Nat) (cpuCount : Nat) :
    Report × World :=
  let videoFiles := collectVideoFiles videoFolder listing
  if videoFiles = [] then
    (⟨0, 0, none⟩, w)
  else
    let n := match numProcesses with
      | none => min (min cpuCount videoFiles.length) 64
      | some k => k
    let res := runJobs env processedFolder videoFiles w
    (⟨res.1, res.2.1, some n⟩, res.2.2)

/-! ## Lemmas about the path helpers -/

theorem splitLast_eq_none {c : Char} {l : List Char} (h : c ∉ l) : splitLast c l = none := by
  induction l with
  | nil => rfl
  | cons x xs ih =>
    have hx : ¬x = c := fun he => h (he ▸ List.mem_cons_self x xs)
    have hxs : c ∉ xs := fun hm => h (List.mem_cons_of_mem x hm)
    simp [splitLast, ih hxs, hx]

theorem splitLast_append {c : Char} {b a : List Char} (h : c ∉ a) :
    splitLast c (b ++ c :: a) = some (b, a) := by
  induction b with
  | nil => simp [splitLast, splitLast_eq_none h]
  | cons x xs ih => simp [splitLast, ih]

theorem not_mem_of_splitLast_eq_none {c : Char} {l : List Char} (h : splitLast c l = none) :
    c ∉ l := by
  induction l with
  | nil => simp
  | cons x xs ih =>
    rw [splitLast] at h
    cases hx : splitLast c xs with
    | some p => rw [hx] at h; exact Option.noConfusion h
    | none =>
      rw [hx] at h
      by_cases hc : x = c
      · rw [if_pos hc] at h; exact Option.noConfusion h
      · intro hm
        rcases List.mem_cons.mp hm with he | hm'
        · exact hc he.symm
        · exact ih hx hm'

theorem splitLast_eq_some {c : Char} {l b a : List Char} (h : splitLast c l = some (b, a)) :
    l = b ++ c :: a ∧ c ∉ a := by
  induction l generalizing b a with
  | nil => simp [splitLast] at h
  | cons x xs ih =>
    rw [splitLast] at h
    cases hx : splitLast c xs with
    | some p =>
      obtain ⟨pb, pa⟩ := p
      rw [hx] at h
      simp only [Option.some.injEq, Prod.mk.injEq] at h
      obtain ⟨h1, h2⟩ := h
      subst h1
      subst h2
      obtain ⟨he, hna⟩ := ih hx
      exact ⟨by rw [he]; rfl, hna⟩
    | none =>
      rw [hx] at h
      by_cases hc : x = c
      · rw [if_pos hc] at h
        simp only [Option.some.injEq, Prod.mk.injEq] at h
        obtain ⟨h1, h2⟩ := h
        subst h1
        subst h2
        exact ⟨by simp [hc], not_mem_of_splitLast_eq_none hx⟩
      · rw [if_neg hc] at h
        exact Option.noConfusion h

theorem basename_join {d : Path} {n : List Char} (h : '/' ∉ n) :
    basename (pathJoin d n) = n := by
  simp [basename, pathJoin, splitLast_append h]

theorem basename_not_mem_slash (p : Path) : '/' ∉ basename p := by
  unfold basename
  cases hs : splitLast '/' p with
  | none => exact not_mem_of_splitLast_eq_none hs
  | some q =>
    obtain ⟨b, a⟩ := q
    exact (splitLast_eq_some hs).2

theorem pathJoin_inj {d1 d2 : Path} {n1 n2 : List Char} (h1 : '/' ∉ n1) (h2 : '/' ∉ n2)
    (h : pathJoin d1 n1 = pathJoin d2 n2) : d1 = d2 ∧ n1 = n2 := by
  have hs : splitLast '/' (pathJoin d1 n1) = splitLast '/' (pathJoin d2 n2) := by rw [h]
  rw [pathJoin, pathJoin, splitLast_append h1, splitLast_append h2] at hs
  simpa using hs

theorem splitext_append (name : List Char) : (splitext name).1 ++ (splitext name).2 = name := by
  unfold splitext
  cases hs : splitLast '.' name with
  | none => simp
  | some q =>
    obtain ⟨b, a⟩ := q
    obtain ⟨he, -⟩ := splitLast_eq_some hs
    by_cases hd : b.all (fun c => c = '.')
    · simp [hd]
    · simpa [hd] using he.symm

theorem splitext_of_decomp {x e : List Char} (hd : '.' ∉ e) (hx : x ≠ [])
    (hh : x.head? ≠ some '.') : splitext (x ++ '.' :: e) = (x, '.' :: e) := by
  unfold splitext
  rw [splitLast_append hd]
  have : ¬x.all (fun c => c = '.') := by
    cases x with
    | nil => exact absurd rfl hx
    | cons c cs =>
      simp only [List.head?] at hh
      simp only [List.all_cons, Bool.and_eq_true, decide_eq_true_eq]
      intro hall
      exact hh (by rw [hall.1])
  simp [this]

theorem destName_of_decomp {x e : List Char} (hd : '.' ∉ e) (hx : x ≠ [])
    (hh : x.head? ≠ some '.') : destName (x ++ '.' :: e) = x ++ tag480 ++ '.' :: e := by
  rw [destName, splitext_of_decomp hd hx hh]

/-- The destination path of a job is never the job's own source file: the
destination's base name is five characters longer than the source's. -/
theorem destName_not_mem_slash {n : List Char} (h : '/' ∉ n) : '/' ∉ destName n := by
  rw [destName]
  intro hm
  have htag : '/' ∉ tag480 := by decide
  have hbase : '/' ∉ (splitext n).1 ++ (splitext n).2 := by
    rw [splitext_append]; exact h
  rcases List.mem_append.mp hm with hm' | hm'
  · rcases List.mem_append.mp hm' with h1 | h2
    · exact hbase (List.mem_append.mpr (Or.inl h1))
    · exact htag h2
  · exact hbase (List.mem_append.mpr (Or.inr hm'))

theorem dstOf_ne_self (pf v : Path) : dstOf pf v ≠ v := by
  intro h
  have hns : '/' ∉ destName (basename v) := destName_not_mem_slash (basename_not_mem_slash v)
  have hb : basename (dstOf pf v) = destName (basename v) := basename_join hns
  rw [h] at hb
  have h1 := congrArg List.length hb
  have h2 := congrArg List.length (splitext_append (basename v))
  rw [destName] at h1
  simp only [List.length_append] at h1 h2
  have h5 : tag480.length = 5 := by decide
  omega

/-! ## Lemmas about the enumeration -/

theorem videoExtensions_facts :
    ∀ e ∈ videoExtensions, '.' ∉ e ∧ '/' ∉ e ∧ 2 ≤ e.length := by decide

/-- A name matching the pattern `*.<e>` decomposes as `x ++ "." ++ e` with a
non-empty, non-dot-initial `x`. -/
theorem globMatch_decomp {e n : List Char} (h : globMatch e n = true) :
    ∃ x, n = x ++ '.' :: e ∧ x ≠ [] ∧ x.head? ≠ some '.' := by
  rw [globMatch, Bool.and_eq_true] at h
  obtain ⟨hh, hsfx⟩ := h
  have hs : '.' :: e <:+ n := of_decide_eq_true hsfx
  obtain ⟨x, rfl⟩ := hs
  refine ⟨x, rfl, ?_, ?_⟩
  · rintro rfl
    simp at hh
  · cases x with
    | nil => simp at hh
    | cons c cs => simpa using hh

theorem ext_suffix_unique :
    ∀ e1 ∈ videoExtensions, ∀ e2 ∈ videoExtensions,
      ('.' :: e1) <:+ ('.' :: e2) → e1 = e2 := by decide

/-- No name matches two distinct patterns of the allow-list. -/
theorem globMatch_unique {e1 e2 n : List Char}
    (h1 : e1 ∈ videoExtensions) (h2 : e2 ∈ videoExtensions)
    (hm1 : globMatch e1 n = true) (hm2 : globMatch e2 n = true) : e1 = e2 := by
  have hs1 : '.' :: e1 <:+ n := by
    rw [globMatch, Bool.and_eq_true] at hm1
    exact of_decide_eq_true hm1.2
  have hs2 : '.' :: e2 <:+ n := by
    rw [globMatch, Bool.and_eq_true] at hm2
    exact of_decide_eq_true hm2.2
  rcases List.suffix_or_suffix_of_suffix hs1 hs2 with h | h
  · exact ext_suffix_unique e1 h1 e2 h2 h
  · exact (ext_suffix_unique e2 h2 e1 h1 h).symm

theorem mem_matchingNames {listing : List (List Char)} {n : List Char} :
    n ∈ matchingNames listing ↔
      n ∈ listing ∧ ∃ e ∈ videoExtensions, globMatch e n = true := by
  rw [matchingNames]
  simp only [List.mem_flatMap, List.mem_filter]
  constructor
  · rintro ⟨e, he, hn, hg⟩
    exact ⟨hn, e, he, hg⟩
  · rintro ⟨hn, e, he, hg⟩
    exact ⟨e, he, hn, hg⟩

theorem count_flatMap_filter_eq (listing : List (List Char)) {n e : List Char}
    (es : List (List Char)) (hnd : es.Nodup) (hsub : ∀ e' ∈ es, e' ∈ videoExtensions)
    (he : e ∈ es) (hee : e ∈ videoExtensions) (hm : globMatch e n = true) :
    (es.flatMap (fun e' => listing.filter (globMatch e'))).count n = listing.count n := by
  induction es with
  | nil => simp at he
  | cons a as ih =>
    rw [List.flatMap_cons, List.count_append]
    rcases List.mem_cons.mp he with rfl | has
    · have hz : (as.flatMap (fun e' => listing.filter (globMatch e'))).count n = 0 := by
        rw [List.count_eq_zero]
        intro hmem
        obtain ⟨e', he', hmem'⟩ := List.mem_flatMap.mp hmem
        have := globMatch_unique (hsub e' (List.mem_cons_of_mem _ he')) hee
          (List.mem_filter.mp hmem').2 hm
        exact (List.nodup_cons.mp hnd).1 (this ▸ he')
      rw [hz, List.count_filter]
      · omega
      · exact hm
    · have hz : (listing.filter (globMatch a)).count n = 0 := by
        rw [List.count_eq_zero]
        intro hmem
        have := globMatch_unique (hsub a (List.mem_cons_self a as)) hee
          (List.mem_filter.mp hmem).2 hm
        exact (List.nodup_cons.mp hnd).1 (this ▸ has)
      rw [hz, ih (List.nodup_cons.mp hnd).2 (fun e' h' => hsub e' (List.mem_cons_of_mem _ h')) has]
      omega

/-- A name matching pattern `*.<e>` is enumerated exactly as often as it
occurs in the directory listing. -/
theorem count_matchingNames {listing : List (List Char)} {n e : List Char}
    (he : e ∈ videoExtensions) (hm : globMatch e n = true) :
    (matchingNames listing).count n = listing.count n :=
  count_flatMap_filter_eq listing videoExtensions (by decide) (fun _ h => h) he he hm

theorem matchingNames_nodup {listing : List (List Char)} (h : listing.Nodup) :
    (matchingNames listing).Nodup := by
  rw [matchingNames, List.nodup_flatMap]
  refine ⟨fun e _ => h.filter _, ?_⟩
  have hne : videoExtensions.Pairwise (fun a b => a ≠ b) := by decide
  refine hne.imp_of_mem ?_
  intro a b ha hb hab n hna hnb
  exact hab (globMatch_unique ha hb (List.mem_filter.mp hna).2 (List.mem_filter.mp hnb).2)

theorem take2_reverse_append (l e : List Char) (h : 2 ≤ e.length) :
    (l ++ e).reverse.take 2 = e.reverse.take 2 := by
  rw [List.reverse_append, List.take_append_of_le_length (by simpa using h)]

/-- The last two characters distinguish the six recognized extensions. -/
theorem ext_fingerprint :
    ∀ e1 ∈ videoExtensions, ∀ e2 ∈ videoExtensions,
      ('.' :: e1).reverse.take 2 = ('.' :: e2).reverse.take 2 → e1 = e2 := by decide

/-- On glob-matched names, `name ↦ stem ++ "_480p" ++ ext` is injective: the
extension is recovered from the last two characters and the stem by
cancellation. -/
theorem destName_inj {n1 n2 e1 e2 : List Char}
    (he1 : e1 ∈ videoExtensions) (he2 : e2 ∈ videoExtensions)
    (hm1 : globMatch e1 n1 = true) (hm2 : globMatch e2 n2 = true)
    (h : destName n1 = destName n2) : n1 = n2 := by
  obtain ⟨x1, rfl, hx1, hh1⟩ := globMatch_decomp hm1
  obtain ⟨x2, rfl, hx2, hh2⟩ := globMatch_decomp hm2
  obtain ⟨hd1, -, hl1⟩ := videoExtensions_facts e1 he1
  obtain ⟨hd2, -, hl2⟩ := videoExtensions_facts e2 he2
  rw [destName_of_decomp hd1 hx1 hh1, destName_of_decomp hd2 hx2 hh2] at h
  have hee : e1 = e2 := by
    have h2 := congrArg (fun l => l.reverse.take 2) h
    simp only at h2
    rw [take2_reverse_append (x1 ++ tag480) ('.' :: e1) (by simp; omega),
        take2_reverse_append (x2 ++ tag480) ('.' :: e2) (by simp; omega)] at h2
    exact ext_fingerprint e1 he1 e2 he2 h2
  subst hee
  have hx : x1 = x2 := List.append_cancel_right (List.append_cancel_right h)
  rw [hx]

theorem collectVideoFiles_eq_map (vf : Path) (listing : List (List Char)) :
    collectVideoFiles vf listing = (matchingNames listing).map (pathJoin vf) := by
  rw [collectVideoFiles, matchingNames, List.map_flatMap]

/-- Bundle of structural facts about the enumerated job list, valid for any
duplicate-free, slash-free directory listing and distinct input/output
folders: the sources are distinct, the destinations are distinct, and no
destination coincides with a source. -/
theorem collect_facts {vf pf : Path} {listing : List (List Char)}
    (hnd : listing.Nodup) (hsl : ∀ n ∈ listing, '/' ∉ n) (hvp : vf ≠ pf) :
    (collectVideoFiles vf listing).Nodup ∧
    ((collectVideoFiles vf listing).map (dstOf pf)).Nodup ∧
    (∀ v ∈ collectVideoFiles vf listing, ∀ u ∈ collectVideoFiles vf listing,
      dstOf pf v ≠ u) := by
  rw [collectVideoFiles_eq_map]
  have hmem : ∀ n ∈ matchingNames listing, '/' ∉ n := fun n hn =>
    hsl n (mem_matchingNames.mp hn).1
  have hj : ∀ n1 ∈ matchingNames listing, ∀ n2 ∈ matchingNames listing,
      pathJoin vf n1 = pathJoin vf n2 → n1 = n2 := fun n1 h1 n2 h2 he =>
    (pathJoin_inj (hmem n1 h1) (hmem n2 h2) he).2
  have hdst : ∀ n ∈ matchingNames listing, ∀ m ∈ matchingNames listing,
      dstOf pf (pathJoin vf n) ≠ pathJoin vf m := by
    intro n hn m hm he
    rw [dstOf, basename_join (hmem n hn)] at he
    exact hvp ((pathJoin_inj (destName_not_mem_slash (hmem n hn)) (hmem m hm) he).1).symm
  refine ⟨?_, ?_, ?_⟩
  · exact (matchingNames_nodup hnd).map_on hj
  · rw [List.map_map]
    refine (matchingNames_nodup hnd).map_on ?_
    intro n1 h1 n2 h2 he
    simp only [Function.comp] at he
    rw [dstOf, dstOf, basename_join (hmem n1 h1), basename_join (hmem n2 h2)] at he
    obtain ⟨hn1, e1, he1, hg1⟩ := mem_matchingNames.mp h1
    obtain ⟨hn2, e2, he2, hg2⟩ := mem_matchingNames.mp h2
    exact destName_inj he1 he2 hg1 hg2
      (pathJoin_inj (destName_not_mem_slash (hmem n1 h1))
        (destName_not_mem_slash (hmem n2 h2)) he).2
  · intro v hv u hu
    obtain ⟨n, hn, rfl⟩ := List.mem_map.mp hv
    obtain ⟨m, hm, rfl⟩ := List.mem_map.mp hu
    exact hdst n hn m hm

/-! ## Per-job lemmas: the three branches of `process_single_video` -/

/-- Lines 55–57: when the destination exists, the job short-circuits as a
success and the world is untouched. -/
theorem psv_skip {env : Env} {w : World} {v pf : Path}
    (h : (w.fs (dstOf pf v)).isSome = true) :
    process_single_video env w v pf = ((true, v, dstOf pf v, basename v), w) := by
  simp [process_single_video, h]

/-- Lines 60, 70–73: when the destination is absent and ffmpeg fails, the job
reports failure; only the invocation counter changes. -/
theorem psv_fail {env : Env} {w : World} {v pf : Path}
    (h : w.fs (dstOf pf v) = none) (hok : env.transcodeOk v (dstOf pf v) = false) :
    process_single_video env w v pf =
      ((false, v, dstOf pf v, basename v), ⟨w.fs, w.calls + 1⟩) := by
  simp [process_single_video, h, resize_video, hok]

/-- Lines 60–69: when the destination is absent and ffmpeg succeeds, the job
reports success, the destination is written, the source is removed exactly
when it exists and `os.remove` raises no `OSError`, and nothing else moves. -/
theorem psv_ok_spec {env : Env} {w : World} {v pf : Path}
    (h : w.fs (dstOf pf v) = none) (hok : env.transcodeOk v (dstOf pf v) = true) :
    (process_single_video env w v pf).1 = (true, v, dstOf pf v, basename v) ∧
    (process_single_video env w v pf).2.calls = w.calls + 1 ∧
    (process_single_video env w v pf).2.fs (dstOf pf v) =
      some (env.transcodeContent v (dstOf pf v)) ∧
    (∀ p, p ≠ v → p ≠ dstOf pf v → (process_single_video env w v pf).2.fs p = w.fs p) ∧
    ((w.fs v).isSome = true → env.removeFails v = false →
      (process_single_video env w v pf).2.fs v = none) ∧
    (((w.fs v).isSome = false ∨ env.removeFails v = true) →
      (process_single_video env w v pf).2.fs v = w.fs v) := by
  have hne : ¬(v = dstOf pf v) := fun he => dstOf_ne_self pf v he.symm
  have hdv : ¬(dstOf pf v = v) := dstOf_ne_self pf v
  simp only [process_single_video, h, Option.isSome_none, Bool.false_eq_true, if_false,
    resize_video, hok, if_true, osRemove]
  by_cases hrm : ((if v = dstOf pf v then some (env.transcodeContent v (dstOf pf v))
      else w.fs v).isSome && !env.removeFails v) = true
  · rw [if_pos hrm]
    rw [if_neg hne] at hrm
    simp only [Bool.and_eq_true, Bool.not_eq_true'] at hrm
    refine ⟨trivial, rfl, ?_, ?_, ?_, ?_⟩
    · simp [hdv]
    · intro p hpv hpd
      simp [hpv, hpd]
    · intro _ _
      simp
    · rintro (hs | hr)
      · rw [hrm.1] at hs
        simp at hs
      · rw [hrm.2] at hr
        simp at hr
  · rw [if_neg hrm]
    rw [if_neg hne] at hrm
    simp only [Bool.and_eq_true, Bool.not_eq_true', not_and_or, Bool.not_eq_false] at hrm
    refine ⟨trivial, rfl, ?_, ?_, ?_, ?_⟩
    · simp
    · intro p hpv hpd
      simp [hpd]
    · intro hs hr
      rcases hrm with h' | h'
      · rw [hs] at h'
        simp at h'
      · rw [hr] at h'
        simp at h'
    · intro _
      simp [hne]

/-! ## The batch fold: `runJobs` characterization -/

/-- Master characterization of the job fold, for a batch whose destinations
are initially absent, pairwise distinct, and disjoint from the (pairwise
distinct) sources: the tallies count ffmpeg successes and failures, every
job invokes ffmpeg once, untouched paths keep their content, failed jobs
leave their source as it was, and successful jobs write their destination
and delete their source exactly when it exists and removal raises no error. -/
theorem runJobs_cons (env : Env) (pf v : Path) (vs : List Path) (w : World) :
    runJobs env pf (v :: vs) w =
      ((if (process_single_video env w v pf).1.1 then
          (runJobs env pf vs (process_single_video env w v pf).2).1 + 1
        else (runJobs env pf vs (process_single_video env w v pf).2).1),
       (if (process_single_video env w v pf).1.1 then
          (runJobs env pf vs (process_single_video env w v pf).2).2.1
        else (runJobs env pf vs (process_single_video env w v pf).2).2.1 + 1),
       (runJobs env pf vs (process_single_video env w v pf).2).2.2) := rfl

theorem runJobs_spec (env : Env) (pf : Path) :
    ∀ (vs : List Path) (w : World),
      (∀ v ∈ vs, w.fs (dstOf pf v) = none) →
      ((vs.map (dstOf pf)).Nodup) →
      vs.Nodup →
      (∀ v ∈ vs, ∀ u ∈ vs, dstOf pf v ≠ u) →
      (runJobs env pf vs w).1 = vs.countP (fun v => env.transcodeOk v (dstOf pf v)) ∧
      (runJobs env pf vs w).2.1 = vs.countP (fun v => !env.transcodeOk v (dstOf pf v)) ∧
      (runJobs env pf vs w).2.2.calls = w.calls + vs.length ∧
      (∀ p, p ∉ vs → (∀ v ∈ vs, p ≠ dstOf pf v) → (runJobs env pf vs w).2.2.fs p = w.fs p) ∧
      (∀ v ∈ vs, env.transcodeOk v (dstOf pf v) = false →
        (runJobs env pf vs w).2.2.fs v = w.fs v) ∧
      (∀ v ∈ vs, env.transcodeOk v (dstOf pf v) = true →
        (runJobs env pf vs w).2.2.fs (dstOf pf v) =
          some (env.transcodeContent v (dstOf pf v)) ∧
        ((w.fs v).isSome = true → env.removeFails v = false →
          (runJobs env pf vs w).2.2.fs v = none)) := by
  intro vs
  induction vs with
  | nil =>
    intro w _ _ _ _
    simp [runJobs]
  | cons v vs ih =>
    intro w hfresh hdnd hsnd hds
    have hfv : w.fs (dstOf pf v) = none := hfresh v (List.mem_cons_self v vs)
    have hvnotin : v ∉ vs := (List.nodup_cons.mp hsnd).1
    have hdne : ∀ u ∈ vs, dstOf pf u ≠ dstOf pf v := by
      intro u hu he
      rw [List.map_cons, List.nodup_cons] at hdnd
      exact hdnd.1 (he ▸ List.mem_map_of_mem (dstOf pf) hu)
    have hds' : ∀ a ∈ vs, ∀ b ∈ vs, dstOf pf a ≠ b := fun a ha b hb =>
      hds a (List.mem_cons_of_mem v ha) b (List.mem_cons_of_mem v hb)
    have hdvs : ∀ u ∈ v :: vs, dstOf pf v ≠ u := fun u hu =>
      hds v (List.mem_cons_self v vs) u hu
    have hvd : ∀ u ∈ vs, v ≠ dstOf pf u := fun u hu he =>
      hds u (List.mem_cons_of_mem v hu) v (List.mem_cons_self v vs) he.symm
    cases hok : env.transcodeOk v (dstOf pf v) with
    | false =>
      have hstep := psv_fail hfv hok
      have hw1 : (process_single_video env w v pf).2 = ⟨w.fs, w.calls + 1⟩ := by
        rw [hstep]
      obtain ⟨ih1, ih2, ih3, ih4, ih5, ih6⟩ := ih ⟨w.fs, w.calls + 1⟩
        (fun u hu => hfresh u (List.mem_cons_of_mem v hu))
        (by rw [List.map_cons, List.nodup_cons] at hdnd; exact hdnd.2)
        (List.nodup_cons.mp hsnd).2 hds'
      rw [runJobs_cons]
      simp only [hstep]
      refine ⟨?_, ?_, ?_, ?_, ?_, ?_⟩
      · rw [List.countP_cons]
        simp [hok, ih1]
      · rw [List.countP_cons]
        simp [hok, ih2]
      · simp only [ih3]
        simp [List.length_cons]
        omega
      · intro p hp hpd
        rw [ih4 p (fun hm => hp (List.mem_cons_of_mem v hm))
          (fun u hu => hpd u (List.mem_cons_of_mem v hu))]
      · intro u hu hu_ok
        rcases List.mem_cons.mp hu with rfl | hu'
        · rw [ih4 u hvnotin hvd]
        · rw [ih5 u hu' hu_ok]
      · intro u hu hu_ok
        rcases List.mem_cons.mp hu with rfl | hu'
        · rw [hok] at hu_ok
          exact absurd hu_ok (by simp)
        · exact ih6 u hu' hu_ok
    | true =>
      obtain ⟨p1, p2, p3, p4, p5, p6⟩ := psv_ok_spec hfv hok
      set w1 := (process_single_video env w v pf).2 with hw1def
      have hr1 : (process_single_video env w v pf).1.1 = true := by rw [p1]
      have hfresh' : ∀ u ∈ vs, w1.fs (dstOf pf u) = none := by
        intro u hu
        rw [p4 (dstOf pf u) (hds u (List.mem_cons_of_mem v hu) v (List.mem_cons_self v vs))
          (hdne u hu)]
        exact hfresh u (List.mem_cons_of_mem v hu)
      obtain ⟨ih1, ih2, ih3, ih4, ih5, ih6⟩ := ih w1 hfresh'
        (by rw [List.map_cons, List.nodup_cons] at hdnd; exact hdnd.2)
        (List.nodup_cons.mp hsnd).2 hds'
      rw [runJobs_cons]
      simp only [hr1, if_true]
      refine ⟨?_, ?_, ?_, ?_, ?_, ?_⟩
      · rw [List.countP_cons]
        simp [hok, ih1]
      · rw [List.countP_cons]
        simp [hok, ih2]
      · simp only [ih3, p2]
        simp [List.length_cons]
        omega
      · intro p hp hpd
        rw [ih4 p (fun hm => hp (List.mem_cons_of_mem v hm))
          (fun u hu => hpd u (List.mem_cons_of_mem v hu))]
        exact p4 p (fun he => hp (he ▸ List.mem_cons_self v vs))
          (hpd v (List.mem_cons_self v vs))
      · intro u hu hu_ok
        rcases List.mem_cons.mp hu with rfl | hu'
        · rw [hok] at hu_ok
          exact absurd hu_ok (by simp)
        · rw [ih5 u hu' hu_ok]
          exact p4 u (fun he => hvnotin (he ▸ hu'))
            (Ne.symm (hds v (List.mem_cons_self v vs) u (List.mem_cons_of_mem v hu')))
      · intro u hu hu_ok
        rcases List.mem_cons.mp hu with rfl | hu'
        · constructor
          · rw [ih4 (dstOf pf u)
              (fun hm => (hds u (List.mem_cons_self u vs) (dstOf pf u)
                (List.mem_cons_of_mem u hm)) rfl)
              (fun u' hu'' => Ne.symm (hdne u' hu''))]
            exact p3
          · intro hs hrm
            rw [ih4 u hvnotin hvd]
            exact p5 hs hrm
        · have hfs : w1.fs u = w.fs u := p4 u (fun he => hvnotin (he ▸ hu'))
            (Ne.symm (hds v (List.mem_cons_self v vs) u (List.mem_cons_of_mem v hu')))
          obtain ⟨q1, q2⟩ := ih6 u hu' hu_ok
          refine ⟨q1, fun hs hrm => q2 ?_ hrm⟩
          rw [hfs]
          exact hs

theorem countP_add_countP_not (l : List Path) (p : Path → Bool) :
    l.countP p + l.countP (fun a => !p a) = l.length := by
  induction l with
  | nil => rfl
  | cons x xs ih =>
    rw [List.countP_cons, List.countP_cons]
    cases h : p x <;> simp [h] <;> omega

/-- Lines 88–90: with no matching video file, the function prints a message
and returns at once, before any pool is created; nothing happens. -/
theorem pvif_empty {env : Env} {w : World} {vf pf : Path} {listing : List (List Char)}
    {np : Option Nat} {cpu : Nat} (h : collectVideoFiles vf listing = []) :
    process_videos_in_folder env w vf pf listing np cpu = (⟨0, 0, none⟩, w) := by
  simp [process_videos_in_folder, h]

/-- Lines 92–117: with matching video files present, the pool size is
computed and all jobs are run and tallied. -/
theorem pvif_run {env : Env} {w : World} {vf pf : Path} {listing : List (List Char)}
    {np : Option Nat} {cpu : Nat} (h : collectVideoFiles vf listing ≠ []) :
    process_videos_in_folder env w vf pf listing np cpu =
      (⟨(runJobs env pf (collectVideoFiles vf listing) w).1,
        (runJobs env pf (collectVideoFiles vf listing) w).2.1,
        some (match np with
          | none => min (min cpu (collectVideoFiles vf listing).length) 64
          | some k => k)⟩,
       (runJobs env pf (collectVideoFiles vf listing) w).2.2) := by
  simp [process_videos_in_folder, h]

/-- The output path in the returned tuple is computed before any branching
and is the same on the skip, success and failure paths. -/
theorem psv_outputPath (env : Env) (w : World) (v pf : Path) :
    (process_single_video env w v pf).1.2.2.1 = dstOf pf v := by
  rw [process_single_video]
  split
  · rfl
  · cases hb : (resize_video env w v (dstOf pf v)).1 <;> simp [hb]

/-! ## Concrete instances used by the witnesses -/

/-- An oracle on which every transcode succeeds and no removal fails. -/
def envAllOk : Env := ⟨fun _ _ => true, fun _ _ => 0, fun _ => false⟩

/-- An oracle failing exactly on the source `in/b.mp4`. -/
def envFailB : Env :=
  ⟨fun v _ => v != "in/b.mp4".toList, fun _ _ => 0, fun _ => false⟩

/-- A file system holding exactly the given paths (content 7 each). -/
def fsOnly (ps : List Path) : Path → Option Nat := fun p => if p ∈ ps then some 7 else none

/-- A world with exactly the given files and no invocations yet. -/
def wWith (ps : List Path) : World := ⟨fsOnly ps, 0⟩

/-- The input folder used by witnesses. -/
def vfW : Path := "in".toList

/-- The output folder used by witnesses. -/
def pfW : Path := "out".toList

/-! ## The claims -/

/-- Claim C2: a job whose derived destination path already exists returns
success without invoking the external transcode, leaving the world — in
particular the pre-existing destination file — exactly as it was. -/
theorem claim2_skip_if_exists (env : Env) (w : World) (videoFile pf : Path)
    (h : (w.fs (dstOf pf videoFile)).isSome = true) :
    process_single_video env w videoFile pf =
      ((true, videoFile, dstOf pf videoFile, basename videoFile), w) :=
  psv_skip h

/-- Witness for C2 at a concrete job with pre-existing destination. -/
theorem claim2_skip_if_exists_witness :
    process_single_video envAllOk (wWith ["out/a_480p.mp4".toList])
        "in/a.mp4".toList pfW =
      ((true, "in/a.mp4".toList, dstOf pfW "in/a.mp4".toList,
        basename "in/a.mp4".toList), wWith ["out/a_480p.mp4".toList]) :=
  claim2_skip_if_exists envAllOk (wWith ["out/a_480p.mp4".toList])
    "in/a.mp4".toList pfW (by decide)

/-- Claim C6: when the transcode invocation succeeds, the job reports
success and the source is deleted (when it exists and removal raises no
`OSError`); if deletion fails, the source is left as it was and the job is
still reported as succeeded — the deletion outcome never changes the job's
success status. -/
theorem claim6_delete_source_on_success (env : Env) (w : World) (v pf : Path)
    (hd : w.fs (dstOf pf v) = none) (hok : env.transcodeOk v (dstOf pf v) = true) :
    (process_single_video env w v pf).1.1 = true ∧
    ((w.fs v).isSome = true → env.removeFails v = false →
      (process_single_video env w v pf).2.fs v = none) ∧
    (env.removeFails v = true →
      (process_single_video env w v pf).1.1 = true ∧
      (process_single_video env w v pf).2.fs v = w.fs v) := by
  obtain ⟨p1, -, -, -, p5, p6⟩ := psv_ok_spec hd hok
  have hsucc : (process_single_video env w v pf).1.1 = true := by rw [p1]
  exact ⟨hsucc, p5, fun hr => ⟨hsucc, p6 (Or.inr hr)⟩⟩

/-- Witness for C6: success deletes the present source. -/
theorem claim6_delete_source_on_success_witness :
    (process_single_video envAllOk (wWith ["in/a.mp4".toList]) "in/a.mp4".toList pfW).1.1 =
      true ∧
    (process_single_video envAllOk (wWith ["in/a.mp4".toList]) "in/a.mp4".toList
      pfW).2.fs "in/a.mp4".toList = none := by
  have h := claim6_delete_source_on_success envAllOk (wWith ["in/a.mp4".toList])
    "in/a.mp4".toList pfW (by decide) (by decide)
  exact ⟨h.1, h.2.1 (by decide) (by decide)⟩

/-- Claim C7: when no file of the input directory matches the recognized
extensions, the run returns at once with an empty tally (zero succeeded,
zero failed, no pool created) and an unchanged world — no error, no work. -/
theorem claim7_empty_report (env : Env) (w : World) (vf pf : Path)
    (listing : List (List Char)) (np : Option Nat) (cpu : Nat)
    (h : collectVideoFiles vf listing = []) :
    process_videos_in_folder env w vf pf listing np cpu = (⟨0, 0, none⟩, w) :=
  pvif_empty h

/-- Witness for C7 on a directory containing only `notes.txt`. -/
theorem claim7_empty_report_witness :
    process_videos_in_folder envAllOk (wWith ["in/notes.txt".toList]) vfW pfW
        ["notes.txt".toList] none 4 =
      (⟨0, 0, none⟩, wWith ["in/notes.txt".toList]) :=
  claim7_empty_report envAllOk (wWith ["in/notes.txt".toList]) vfW pfW
    ["notes.txt".toList] none 4 (by decide)

/-- Claim C5: for a non-empty batch, the worker pool is created with size
`min(min(cpu_count, job_count), 64)` when `num_processes` is `None`, and
with exactly the given value when it is specified. -/
theorem claim5_pool_size (env : Env) (w : World) (vf pf : Path)
    (listing : List (List Char)) (cpu k : Nat)
    (h : collectVideoFiles vf listing ≠ []) :
    (process_videos_in_folder env w vf pf listing none cpu).1.poolSize =
      some (min (min cpu (collectVideoFiles vf listing).length) 64) ∧
    (process_videos_in_folder env w vf pf listing (some k) cpu).1.poolSize = some k := by
  rw [pvif_run h, pvif_run h]
  exact ⟨rfl, rfl⟩

/-- Witness for C5: one job, four CPUs gives pool size 1; an explicit 5 is
honored exactly. -/
theorem claim5_pool_size_witness :
    (process_videos_in_folder envAllOk (wWith ["in/a.mp4".toList]) vfW pfW
      ["a.mp4".toList] none 4).1.poolSize = some 1 ∧
    (process_videos_in_folder envAllOk (wWith ["in/a.mp4".toList]) vfW pfW
      ["a.mp4".toList] (some 5) 4).1.poolSize = some 5 := by
  have h := claim5_pool_size envAllOk (wWith ["in/a.mp4".toList]) vfW pfW
    ["a.mp4".toList] 4 5 (by decide)
  refine ⟨?_, h.2⟩
  rw [h.1]
  decide

/-- Claim C10: a skipped job (destination already present) leaves the whole
world — source file included — exactly as it was; conversely, if a job's
source file changed at all, then the destination was absent, the external
transcode was invoked (one new call) and it succeeded. -/
theorem claim10_skip_frame (env : Env) (w : World) (v pf : Path) :
    ((w.fs (dstOf pf v)).isSome = true → (process_single_video env w v pf).2 = w) ∧
    ((process_single_video env w v pf).2.fs v ≠ w.fs v →
      w.fs (dstOf pf v) = none ∧ env.transcodeOk v (dstOf pf v) = true ∧
      (process_single_video env w v pf).2.calls = w.calls + 1) := by
  constructor
  · intro h
    rw [psv_skip h]
  · intro hch
    cases hd : w.fs (dstOf pf v) with
    | some c =>
      rw [psv_skip (by rw [hd]; rfl)] at hch
      exact absurd rfl hch
    | none =>
      cases hok : env.transcodeOk v (dstOf pf v) with
      | false =>
        rw [psv_fail hd hok] at hch
        exact absurd rfl hch
      | true =>
        obtain ⟨-, p2, -, -, -, -⟩ := psv_ok_spec hd hok
        exact ⟨rfl, rfl, p2⟩

/-- Witness for C10: a job that deletes its source did transcode. -/
theorem claim10_skip_frame_witness :
    (process_single_video envAllOk (wWith ["in/a.mp4".toList]) "in/a.mp4".toList
        pfW).2.fs "in/a.mp4".toList ≠ (wWith ["in/a.mp4".toList]).fs "in/a.mp4".toList ∧
    ((wWith ["in/a.mp4".toList]).fs (dstOf pfW "in/a.mp4".toList) = none ∧
      envAllOk.transcodeOk "in/a.mp4".toList (dstOf pfW "in/a.mp4".toList) = true ∧
      (process_single_video envAllOk (wWith ["in/a.mp4".toList]) "in/a.mp4".toList
        pfW).2.calls = (wWith ["in/a.mp4".toList]).calls + 1) :=
  ⟨by decide,
   (claim10_skip_frame envAllOk (wWith ["in/a.mp4".toList]) "in/a.mp4".toList pfW).2
     (by decide)⟩

theorem count_beq_bridge (a : List Char) (l : List (List Char)) :
    l.count a = @List.count (List Char) instBEqOfDecidableEq a l := by
  rw [List.count_eq_countP, @List.count_eq_countP _ instBEqOfDecidableEq]
  apply List.countP_congr
  intro x _
  by_cases h : x = a <;> simp [h]

/-- Claim C3: a file `x.<ext>` of the (duplicate-free) input directory with
recognized extension `ext` and non-hidden, slash-free stem `x` yields exactly
one job, whose destination is the output directory joined with
`x_480p.<ext>` — and the returned output path is that same path on the skip,
success and failure branches alike. -/
theorem claim3_one_job_per_file (vf pf : Path) (listing : List (List Char)) (x e : List Char)
    (he : e ∈ videoExtensions) (hnd : listing.Nodup) (hmem : x ++ '.' :: e ∈ listing)
    (hx : x ≠ []) (hxh : x.head? ≠ some '.') (hxs : '/' ∉ x) :
    (collectVideoFiles vf listing).count (pathJoin vf (x ++ '.' :: e)) = 1 ∧
    dstOf pf (pathJoin vf (x ++ '.' :: e)) = pathJoin pf (x ++ tag480 ++ '.' :: e) ∧
    ∀ (env : Env) (w : World),
      (process_single_video env w (pathJoin vf (x ++ '.' :: e)) pf).1.2.2.1 =
        pathJoin pf (x ++ tag480 ++ '.' :: e) := by
  obtain ⟨hdot, hslash, -⟩ := videoExtensions_facts e he
  have hg : globMatch e (x ++ '.' :: e) = true := by
    rw [globMatch, Bool.and_eq_true]
    constructor
    · cases x with
      | nil => exact absurd rfl hx
      | cons c cs => simpa using hxh
    · exact decide_eq_true (List.suffix_append x ('.' :: e))
  have hns : '/' ∉ x ++ '.' :: e := by
    intro hm
    rcases List.mem_append.mp hm with hm' | hm'
    · exact hxs hm'
    · rcases List.mem_cons.mp hm' with he' | he'
      · exact absurd he'.symm (by decide)
      · exact hslash he'
  have hdst : dstOf pf (pathJoin vf (x ++ '.' :: e)) =
      pathJoin pf (x ++ tag480 ++ '.' :: e) := by
    rw [dstOf, basename_join hns, destName_of_decomp hdot hx hxh]
  refine ⟨?_, hdst, ?_⟩
  · rw [collectVideoFiles_eq_map]
    have hinj : Function.Injective (pathJoin vf) := by
      intro a b hab
      rw [pathJoin, pathJoin] at hab
      simpa using List.append_cancel_left hab
    rw [count_beq_bridge]
    calc @List.count Path instBEqOfDecidableEq (pathJoin vf (x ++ '.' :: e))
          ((matchingNames listing).map (pathJoin vf))
        = @List.count (List Char) instBEqOfDecidableEq (x ++ '.' :: e)
            (matchingNames listing) :=
          List.count_map_of_injective _ _ hinj _
      _ = @List.count (List Char) instBEqOfDecidableEq (x ++ '.' :: e) listing := by
          rw [← count_beq_bridge, ← count_beq_bridge]
          exact count_matchingNames he hg
      _ = 1 := List.count_eq_one_of_mem hnd hmem
  · intro env w
    rw [psv_outputPath, hdst]

/-- Witness for C3 on `a.old.mp4` in a two-entry listing. -/
theorem claim3_one_job_per_file_witness :
    (collectVideoFiles vfW ["notes.txt".toList, "a.old.mp4".toList]).count
      (pathJoin vfW ("a.old".toList ++ '.' :: "mp4".toList)) = 1 ∧
    dstOf pfW (pathJoin vfW ("a.old".toList ++ '.' :: "mp4".toList)) =
      pathJoin pfW ("a.old".toList ++ tag480 ++ '.' :: "mp4".toList) ∧
    ∀ (env : Env) (w : World),
      (process_single_video env w (pathJoin vfW ("a.old".toList ++ '.' :: "mp4".toList))
        pfW).1.2.2.1 = pathJoin pfW ("a.old".toList ++ tag480 ++ '.' :: "mp4".toList) :=
  claim3_one_job_per_file vfW pfW ["notes.txt".toList, "a.old.mp4".toList]
    "a.old".toList "mp4".toList (by decide) (by decide) (by decide) (by decide)
    (by decide) (by decide)

/-- Claim C9: the destination path is the pure function `dstOf` of the
source path and the output folder — the same on every branch and for every
oracle and world — and two distinct enumerated files of one (slash-free)
directory scan never collide on destination. -/
theorem claim9_dest_pure_and_injective (vf pf : Path) (listing : List (List Char))
    (hsl : ∀ n ∈ listing, '/' ∉ n) :
    (∀ (env : Env) (w : World) (v : Path),
      (process_single_video env w v pf).1.2.2.1 = dstOf pf v) ∧
    ∀ v1 ∈ collectVideoFiles vf listing, ∀ v2 ∈ collectVideoFiles vf listing,
      v1 ≠ v2 → dstOf pf v1 ≠ dstOf pf v2 := by
  refine ⟨fun env w v => psv_outputPath env w v pf, ?_⟩
  intro v1 hv1 v2 hv2 hne he
  rw [collectVideoFiles_eq_map] at hv1 hv2
  obtain ⟨n1, hn1, rfl⟩ := List.mem_map.mp hv1
  obtain ⟨n2, hn2, rfl⟩ := List.mem_map.mp hv2
  have hs1 : '/' ∉ n1 := hsl n1 (mem_matchingNames.mp hn1).1
  have hs2 : '/' ∉ n2 := hsl n2 (mem_matchingNames.mp hn2).1
  rw [dstOf, dstOf, basename_join hs1, basename_join hs2] at he
  obtain ⟨-, e1, he1, hg1⟩ := mem_matchingNames.mp hn1
  obtain ⟨-, e2, he2, hg2⟩ := mem_matchingNames.mp hn2
  have hn : n1 = n2 := destName_inj he1 he2 hg1 hg2
    (pathJoin_inj (destName_not_mem_slash hs1) (destName_not_mem_slash hs2) he).2
  exact hne (by rw [hn])

/-- Witness for C9: `a.mp4` and `a_480p.mp4` get distinct destinations. -/
theorem claim9_dest_pure_and_injective_witness :
    (∀ (env : Env) (w : World) (v : Path),
      (process_single_video env w v pfW).1.2.2.1 = dstOf pfW v) ∧
    dstOf pfW (pathJoin vfW "a.mp4".toList) ≠
      dstOf pfW (pathJoin vfW "a_480p.mp4".toList) := by
  have h := claim9_dest_pure_and_injective vfW pfW
    ["a.mp4".toList, "a_480p.mp4".toList] (by decide)
  exact ⟨h.1, h.2 (pathJoin vfW "a.mp4".toList) (by decide)
    (pathJoin vfW "a_480p.mp4".toList) (by decide) (by decide)⟩

/-- The spec's notion of a recognized name for C4: the name ends in a dot
followed by one of exactly the six allow-listed extensions (case-sensitive).
Stated from the claim's words, to be compared with the code's enumeration. -/
def hasVideoExt (n : List Char) : Bool :=
  videoExtensions.any (fun e => decide ('.' :: e <:+ n))

/-- Claim C4 counterexample: the hidden file `.a.mp4` matches the extension
`mp4` case-sensitively, yet glob's hidden-file rule keeps it out of the
enumeration, so it produces no job — the claimed "if and only if" fails. -/
theorem claim4_counterexample :
    hasVideoExt ".a.mp4".toList = true ∧
    ".a.mp4".toList ∈ [".a.mp4".toList] ∧
    matchingNames [".a.mp4".toList] = [] ∧
    collectVideoFiles vfW [".a.mp4".toList] = [] := by decide

/-- Claim C4 (amended): a file is enumerated into a job iff its name matches
(case-sensitively) one of exactly the six extensions mp4, avi, mov, mkv,
webm, flv AND does not begin with a dot (glob hides dot-files); upper-case
variants and all other extensions produce no job, and each enumerated name
becomes one job path under the input folder. -/
theorem claim4_amended_enumeration (listing : List (List Char)) (n : List Char) :
    (n ∈ matchingNames listing ↔
      n ∈ listing ∧ n.head? ≠ some '.' ∧ hasVideoExt n = true) ∧
    ∀ vf, collectVideoFiles vf listing = (matchingNames listing).map (pathJoin vf) := by
  refine ⟨?_, fun vf => collectVideoFiles_eq_map vf listing⟩
  rw [mem_matchingNames, hasVideoExt]
  constructor
  · rintro ⟨hn, e, he, hg⟩
    rw [globMatch, Bool.and_eq_true] at hg
    refine ⟨hn, by simpa using hg.1, ?_⟩
    rw [List.any_eq_true]
    exact ⟨e, he, hg.2⟩
  · rintro ⟨hn, hh, hext⟩
    rw [List.any_eq_true] at hext
    obtain ⟨e, he, hsfx⟩ := hext
    refine ⟨hn, e, he, ?_⟩
    rw [globMatch, Bool.and_eq_true]
    exact ⟨by simpa using hh, hsfx⟩

/-- Claim C1: over a duplicate-free, slash-free listing with distinct input
and output folders, destinations initially absent and sources initially
present, a batch of N jobs on which ffmpeg fails for exactly K and succeeds
for the rest tallies N−K succeeded and K failed, and each failed job's
source file is still present, byte-for-byte untouched, afterward. -/
theorem claim1_batch_tally (env : Env) (w : World) (vf pf : Path)
    (listing : List (List Char)) (np : Option Nat) (cpu : Nat)
    (hnd : listing.Nodup) (hsl : ∀ n ∈ listing, '/' ∉ n) (hvp : vf ≠ pf)
    (hfresh : ∀ v ∈ collectVideoFiles vf listing, w.fs (dstOf pf v) = none)
    (hpres : ∀ v ∈ collectVideoFiles vf listing, (w.fs v).isSome = true) :
    (process_videos_in_folder env w vf pf listing np cpu).1.successful =
      (collectVideoFiles vf listing).length -
        (collectVideoFiles vf listing).countP
          (fun v => !env.transcodeOk v (dstOf pf v)) ∧
    (process_videos_in_folder env w vf pf listing np cpu).1.failed =
      (collectVideoFiles vf listing).countP
        (fun v => !env.transcodeOk v (dstOf pf v)) ∧
    ∀ v ∈ collectVideoFiles vf listing, env.transcodeOk v (dstOf pf v) = false →
      (process_videos_in_folder env w vf pf listing np cpu).2.fs v = w.fs v ∧
      ((process_videos_in_folder env w vf pf listing np cpu).2.fs v).isSome = true := by
  obtain ⟨hfnd, hdnd, hds⟩ := collect_facts hnd hsl hvp
  by_cases hf : collectVideoFiles vf listing = []
  · rw [pvif_empty hf, hf]
    exact ⟨rfl, rfl, by simp⟩
  · obtain ⟨s1, s2, -, -, s5, -⟩ :=
      runJobs_spec env pf (collectVideoFiles vf listing) w hfresh hdnd hfnd hds
    rw [pvif_run hf]
    refine ⟨?_, s2, ?_⟩
    · show (runJobs env pf (collectVideoFiles vf listing) w).1 = _
      rw [s1]
      have hlen := countP_add_countP_not (collectVideoFiles vf listing)
        (fun v => env.transcodeOk v (dstOf pf v))
      omega
    · intro v hv hvok
      have h5 := s5 v hv hvok
      refine ⟨h5, ?_⟩
      show ((runJobs env pf (collectVideoFiles vf listing) w).2.2.fs v).isSome = true
      rw [h5]
      exact hpres v hv

/-- Witness for C1: two jobs, ffmpeg fails on `in/b.mp4`: tally is 1 and 1,
and the failed source survives. -/
theorem claim1_batch_tally_witness :
    (process_videos_in_folder envFailB (wWith ["in/a.mp4".toList, "in/b.mp4".toList])
      vfW pfW ["a.mp4".toList, "b.mp4".toList] none 4).1.successful = 1 ∧
    (process_videos_in_folder envFailB (wWith ["in/a.mp4".toList, "in/b.mp4".toList])
      vfW pfW ["a.mp4".toList, "b.mp4".toList] none 4).1.failed = 1 ∧
    (process_videos_in_folder envFailB (wWith ["in/a.mp4".toList, "in/b.mp4".toList])
      vfW pfW ["a.mp4".toList, "b.mp4".toList] none 4).2.fs "in/b.mp4".toList =
      (wWith ["in/a.mp4".toList, "in/b.mp4".toList]).fs "in/b.mp4".toList := by
  have h := claim1_batch_tally envFailB (wWith ["in/a.mp4".toList, "in/b.mp4".toList])
    vfW pfW ["a.mp4".toList, "b.mp4".toList] none 4
    (by decide) (by decide) (by decide) (by decide) (by decide)
  refine ⟨?_, ?_, (h.2.2 "in/b.mp4".toList (by decide) (by decide)).1⟩
  · rw [h.1]
    decide
  · rw [h.2.1]
    decide

/-- Claim C8 counterexample: for `N = 1`, a fully successful first run
deletes its source, so an immediate second run scans an empty folder and
reports 0 succeeded — not `N` succeeded as claimed. -/
theorem claim8_counterexample :
    (process_videos_in_folder envAllOk (wWith ["in/a.mp4".toList]) vfW pfW
      ["a.mp4".toList] none 4).1 = ⟨1, 0, some 1⟩ ∧
    (process_videos_in_folder envAllOk (wWith ["in/a.mp4".toList]) vfW pfW
      ["a.mp4".toList] none 4).2.fs "in/a.mp4".toList = none ∧
    (process_videos_in_folder envAllOk
      (process_videos_in_folder envAllOk (wWith ["in/a.mp4".toList]) vfW pfW
        ["a.mp4".toList] none 4).2 vfW pfW [] none 4).1 = ⟨0, 0, none⟩ := by
  decide

/-- Claim C8 (amended): a second run immediately after a fully successful
first run performs zero transcode invocations — but because the first run
deleted every original, the second run enumerates no files (its listing is
any sub-listing of surviving entries) and returns the empty report, 0
succeeded and 0 failed, rather than N succeeded. -/
theorem claim8_amended_rerun (env : Env) (w : World) (vf pf : Path)
    (listing listing2 : List (List Char)) (np np2 : Option Nat) (cpu cpu2 : Nat)
    (hnd : listing.Nodup) (hsl : ∀ n ∈ listing, '/' ∉ n) (hvp : vf ≠ pf)
    (hfresh : ∀ v ∈ collectVideoFiles vf listing, w.fs (dstOf pf v) = none)
    (hpres : ∀ v ∈ collectVideoFiles vf listing, (w.fs v).isSome = true)
    (hok : ∀ v ∈ collectVideoFiles vf listing, env.transcodeOk v (dstOf pf v) = true)
    (hrm : ∀ v ∈ collectVideoFiles vf listing, env.removeFails v = false)
    (hsub : listing2 ⊆ listing)
    (hex : ∀ n ∈ listing2,
      ((process_videos_in_folder env w vf pf listing np cpu).2.fs
        (pathJoin vf n)).isSome = true) :
    (process_videos_in_folder env w vf pf listing np cpu).1.successful =
      (collectVideoFiles vf listing).length ∧
    (process_videos_in_folder env w vf pf listing np cpu).1.failed = 0 ∧
    (∀ v ∈ collectVideoFiles vf listing,
      (process_videos_in_folder env w vf pf listing np cpu).2.fs v = none) ∧
    process_videos_in_folder env
        (process_videos_in_folder env w vf pf listing np cpu).2 vf pf listing2 np2 cpu2 =
      (⟨0, 0, none⟩, (process_videos_in_folder env w vf pf listing np cpu).2) := by
  obtain ⟨hfnd, hdnd, hds⟩ := collect_facts hnd hsl hvp
  by_cases hf : collectVideoFiles vf listing = []
  · have hmn : matchingNames listing = [] := by
      have := collectVideoFiles_eq_map vf listing
      rw [hf] at this
      exact (List.map_eq_nil_iff.mp this.symm)
    have hf2 : collectVideoFiles vf listing2 = [] := by
      rw [collectVideoFiles_eq_map, List.map_eq_nil_iff, List.eq_nil_iff_forall_not_mem]
      intro n hn
      obtain ⟨hn2, e, he, hg⟩ := mem_matchingNames.mp hn
      have : n ∈ matchingNames listing := mem_matchingNames.mpr ⟨hsub hn2, e, he, hg⟩
      rw [hmn] at this
      simp at this
    rw [pvif_empty hf, hf, pvif_empty hf2]
    exact ⟨rfl, rfl, by simp, rfl⟩
  · obtain ⟨s1, s2, -, -, -, s6⟩ :=
      runJobs_spec env pf (collectVideoFiles vf listing) w hfresh hdnd hfnd hds
    have hdel : ∀ v ∈ collectVideoFiles vf listing,
        (process_videos_in_folder env w vf pf listing np cpu).2.fs v = none := by
      intro v hv
      rw [pvif_run hf]
      exact (s6 v hv (hok v hv)).2 (hpres v hv) (hrm v hv)
    have hf2 : collectVideoFiles vf listing2 = [] := by
      rw [collectVideoFiles_eq_map, List.map_eq_nil_iff, List.eq_nil_iff_forall_not_mem]
      intro n hn
      obtain ⟨hn2, e, he, hg⟩ := mem_matchingNames.mp hn
      have hmem : pathJoin vf n ∈ collectVideoFiles vf listing := by
        rw [collectVideoFiles_eq_map]
        exact List.mem_map_of_mem (pathJoin vf)
          (mem_matchingNames.mpr ⟨hsub hn2, e, he, hg⟩)
      have h1 := hdel (pathJoin vf n) hmem
      have h2 := hex n hn2
      rw [h1] at h2
      simp at h2
    refine ⟨?_, ?_, hdel, ?_⟩
    · rw [pvif_run hf]
      show (runJobs env pf (collectVideoFiles vf listing) w).1 = _
      rw [s1]
      exact List.countP_eq_length.mpr hok
    · rw [pvif_run hf]
      show (runJobs env pf (collectVideoFiles vf listing) w).2.1 = 0
      rw [s2]
      refine List.countP_eq_zero.mpr ?_
      intro v hv
      rw [hok v hv]
      simp
    · exact pvif_empty hf2

/-- Witness for C8 (amended): the one-file batch, rerun over the emptied
folder, returns the empty report with nothing touched. -/
theorem claim8_amended_rerun_witness :
    (process_videos_in_folder envAllOk (wWith ["in/a.mp4".toList]) vfW pfW
      ["a.mp4".toList] none 4).1.successful = 1 ∧
    process_videos_in_folder envAllOk
        (process_videos_in_folder envAllOk (wWith ["in/a.mp4".toList]) vfW pfW
          ["a.mp4".toList] none 4).2 vfW pfW [] none 4 =
      (⟨0, 0, none⟩,
        (process_videos_in_folder envAllOk (wWith ["in/a.mp4".toList]) vfW pfW
          ["a.mp4".toList] none 4).2) := by
  have h := claim8_amended_rerun envAllOk (wWith ["in/a.mp4".toList]) vfW pfW
    ["a.mp4".toList] [] none none 4 4
    (by decide) (by decide) (by decide) (by decide) (by decide) (by decide) (by decide)
    (List.nil_subset _) (by simp)
  refine ⟨?_, h.2.2.2⟩
  rw [h.1]
  decide

/-- Sanity checks that the path helpers agree with CPython's
`os.path.splitext`, `os.path.basename` and the glob model on samples. -/
theorem path_helper_samples :
    splitext "video.old.mp4".toList = ("video.old".toList, ".mp4".toList) ∧
    splitext ".bashrc".toList = (".bashrc".toList, []) ∧
    basename "in/a.mp4".toList = "a.mp4".toList ∧
    dstOf "out".toList "in/a.mp4".toList = "out/a_480p.mp4".toList ∧
    matchingNames ["a.mp4".toList, "notes.txt".toList, "b.mov".toList] =
      ["a.mp4".toList, "b.mov".toList] := by decide

end OpenVid
